import Mathlib

/-!
# Finance_Tracker — verification of the projection engine

A shallow embedding of `src/finance_tracker.py`'s core projection engine
(`InvestmentEngine.run_projection`, the `Phase` enum, the `Creditor` record)
over exact rational arithmetic.  Python `round(x, n)` is modelled by decimal
round-half-even (`roundHalfEven`).  The `RealNetWorth` snapshot column uses a
fractional power `(1+inflation)^(month/12)`, which is irrational and is not
representable in `ℚ`; it is omitted from the embedded snapshot record (no
property below concerns it).
-/

set_option maxRecDepth 100000

unseal Rat.mul Rat.add Rat.sub Rat.inv Rat.ofScientific

namespace FinanceTracker

/-- The three stages of the financial waterfall (`class Phase(Enum)`). -/
inductive Phase where
  | DEBT
  | EMERGENCY
  | INVESTING
deriving DecidableEq, Repr

/-- The display string of a phase (`Phase.value` in the source). -/
def Phase.value : Phase → String
  | .DEBT => "Repaying Creditors"
  | .EMERGENCY => "Emergency Fund"
  | .INVESTING => "Wealth Building"

/-- `@dataclass Creditor`: one debt record. -/
structure Creditor where
  name : String
  balance : ℚ
  interest_rate : ℚ
  min_payment : ℚ
  payoff_month : Option ℕ := none
deriving DecidableEq, Repr

/-- The profile dictionary `self.p` consumed by `InvestmentEngine`. -/
structure Profile where
  income : ℚ
  expenses : ℚ
  emergency_months : ℚ
  stock_yield : ℚ
  bond_yield : ℚ
  stock_ratio : ℚ
  inflation : ℚ
  tax_rate : ℚ
  annual_raise : ℚ
  strategy : String
deriving DecidableEq, Repr

/-- One row of the returned DataFrame.  Currency fields are the
2-decimal-rounded values appended at snapshot-recording time. -/
structure Snapshot where
  month : ℕ
  year : ℚ
  netWorth : ℚ
  phase : Phase
  income : ℚ
  expenses : ℚ
  totalDebt : ℚ
  emergencyFund : ℚ
  investment : ℚ
  interestPaid : ℚ
  taxesPaid : ℚ
deriving DecidableEq, Repr

/-- One entry of the `payoffs` list: `{"name": ..., "month": ..., "year": ...}`. -/
structure PayoffEvent where
  name : String
  month : ℕ
  year : ℚ
deriving DecidableEq, Repr

/-- Python's banker's rounding (`round`) to the nearest integer on exact
rationals: ties go to the even integer. -/
def roundHalfEven (x : ℚ) : ℤ :=
  let n := ⌊x⌋
  let f := x - (n : ℚ)
  if f < 1/2 then n
  else if 1/2 < f then n + 1
  else if n % 2 = 0 then n else n + 1

/-- `round(x, 2)` on exact rationals. -/
def round2 (x : ℚ) : ℚ := (roundHalfEven (x * 100) : ℚ) / 100

/-- `round(x, 1)` on exact rationals. -/
def round1 (x : ℚ) : ℚ := (roundHalfEven (x * 10) : ℚ) / 10

/-- The mutable per-run simulation state threaded through the month loop of
`run_projection`: the working ledger copy plus the local accumulators. -/
structure RunState where
  debts : List Creditor
  income : ℚ
  expenses : ℚ
  emergencyFund : ℚ
  investment : ℚ
  totalInterest : ℚ
  totalTaxes : ℚ
deriving DecidableEq, Repr

/-- `sum(d.balance for d in active_debts)`: the total over creditors whose
balance is strictly positive. -/
def totalActiveDebt (ds : List Creditor) : ℚ :=
  ((ds.filter fun d => decide (0 < d.balance)).map Creditor.balance).sum

/-- The sum of *all* balances in a ledger (equal to `totalActiveDebt` when
every balance is nonnegative). -/
def totalBal (ds : List Creditor) : ℚ := (ds.map Creditor.balance).sum

/-- The sum of all balances in a flagged ledger. -/
def totalBalF (l : List (Creditor × Bool)) : ℚ :=
  (l.map fun q => q.1.balance).sum

/-- The total interest that one month's accrual pass adds across the
currently active creditors: `Σ balance * (interest_rate / 12)`. -/
def accrualOf (ds : List Creditor) : ℚ :=
  ((ds.filter fun d => decide (0 < d.balance)).map
    fun d => d.balance * (d.interest_rate / 12)).sum

/-- The phase rule of the waterfall, exactly as the `if/elif/else` chain
inside `run_projection`. -/
def classify (totalDebt emergencyFund eTarget : ℚ) : Phase :=
  if 0 < totalDebt then .DEBT
  else if emergencyFund < eTarget then .EMERGENCY
  else .INVESTING

/-- Annual escalation: at months that are positive multiples of 12, income
grows by `annual_raise` and expenses by `inflation`. -/
def escalate (p : Profile) (month : ℕ) (s : RunState) : RunState :=
  if 0 < month ∧ month % 12 = 0 then
    { s with income := s.income * (1 + p.annual_raise),
             expenses := s.expenses * (1 + p.inflation) }
  else s

/-- Ledger entries paired with their pre-accrual activity flag, as used by
the Debt-phase allocation. -/
def flagOf (ds : List Creditor) : List (Creditor × Bool) :=
  ds.map fun d => (d, decide (0 < d.balance))

/-- Interest accrual over a flagged ledger.  The `Bool` flag marks membership
in `active_debts` (balance strictly positive *before* this month's accrual,
matching the aliasing in the source where `active_debts` is computed before
the allocation block).  Returns the updated ledger and the summed interest. -/
def accrue : List (Creditor × Bool) → List (Creditor × Bool) × ℚ
  | [] => ([], 0)
  | (d, act) :: rest =>
    let r := accrue rest
    if act then
      let interest := d.balance * (d.interest_rate / 12)
      (({ d with balance := d.balance + interest }, act) :: r.1, interest + r.2)
    else ((d, act) :: r.1, r.2)

/-- The minimum-payment pass: creditors are visited in original ledger order
(the flag again marks membership in `active_debts`); each pays
`min(min_payment, balance, rem_surplus)`; a balance falling to within the
0.01 epsilon with an unset payoff marker is zeroed and generates a payoff
event.  Returns the ledger, the remaining surplus and the events in order. -/
def minPayPass (month : ℕ) : List (Creditor × Bool) → ℚ →
    List Creditor × ℚ × List PayoffEvent
  | [], rem => ([], rem, [])
  | (d, act) :: rest, rem =>
    if act then
      let pay := min (min d.min_payment d.balance) rem
      let b := d.balance - pay
      let rem1 := rem - pay
      if b ≤ 1/100 ∧ d.payoff_month = none then
        let r := minPayPass month rest rem1
        ({ d with balance := 0, payoff_month := some month } :: r.1, r.2.1,
          ⟨d.name, month, round1 ((month : ℚ) / 12)⟩ :: r.2.2)
      else
        let r := minPayPass month rest rem1
        ({ d with balance := b } :: r.1, r.2.1, r.2.2)
    else
      let r := minPayPass month rest rem
      (d :: r.1, r.2.1, r.2.2)

/-- Ledger entries paired with their position. -/
def withIdx : ℕ → List Creditor → List (ℕ × Creditor)
  | _, [] => []
  | k, d :: ds => (k, d) :: withIdx (k + 1) ds

/-- The strategy ordering of the extra-payment pass: re-select the creditors
with positive balance and stable-sort them — Avalanche by descending
interest rate, anything else by ascending balance (Python `list.sort` is
stable, so ties keep original ledger order; `insertionSort` with a
non-strict relation has the same behaviour). -/
def sortActive (strategy : String) (ds : List Creditor) : List (ℕ × Creditor) :=
  let act := (withIdx 0 ds).filter fun q => decide (0 < q.2.balance)
  if strategy = "Avalanche" then
    act.insertionSort fun a b => b.2.interest_rate ≤ a.2.interest_rate
  else
    act.insertionSort fun a b => a.2.balance ≤ b.2.balance

/-- The greedy extra-payment loop over the sorted active indices, reading the
live ledger entry at each index, breaking once the surplus is exhausted. -/
def extraLoop (month : ℕ) : List (ℕ × Creditor) → List Creditor → ℚ →
    List Creditor × ℚ × List PayoffEvent
  | [], ds, rem => (ds, rem, [])
  | (i, _) :: rest, ds, rem =>
    if rem ≤ 0 then (ds, rem, [])
    else
      match ds.get? i with
      | none => extraLoop month rest ds rem
      | some d =>
        let pay := min rem d.balance
        let b := d.balance - pay
        let rem1 := rem - pay
        if b ≤ 1/100 ∧ d.payoff_month = none then
          let r := extraLoop month rest
            (ds.set i { d with balance := 0, payoff_month := some month }) rem1
          (r.1, r.2.1, ⟨d.name, month, round1 ((month : ℚ) / 12)⟩ :: r.2.2)
        else
          let r := extraLoop month rest (ds.set i { d with balance := b }) rem1
          (r.1, r.2.1, r.2.2)

/-- The full Debt-phase allocation for one month: interest accrual, minimum
payments, strategic extra payments, then overflow of any leftover surplus
into the emergency fund.  Returns the ledger, the updated fund, the interest
added this month and the payoff events in chronological order. -/
def debtAlloc (strategy : String) (eTarget : ℚ) (month : ℕ) (ds : List Creditor)
    (fund surplus : ℚ) : List Creditor × ℚ × ℚ × List PayoffEvent :=
  let a := accrue (flagOf ds)
  let m := minPayPass month a.1 surplus
  let e :=
    if 0 < m.2.1 then extraLoop month (sortActive strategy m.1) m.1 m.2.1
    else (m.1, m.2.1, [])
  let fund2 :=
    if 0 < e.2.1 ∧ fund < eTarget then fund + min e.2.1 (eTarget - fund)
    else fund
  (e.1, fund2, a.2, m.2.2 ++ e.2.2)

/-- The allocation block guarded by `month > 0 and surplus > 0`, dispatching
on the month's phase. -/
def allocate (p : Profile) (eTarget wYield : ℚ) (month : ℕ) (phase : Phase)
    (surplus : ℚ) (s : RunState) : RunState × List PayoffEvent :=
  if 0 < month ∧ 0 < surplus then
    match phase with
    | .DEBT =>
      let r := debtAlloc p.strategy eTarget month s.debts s.emergencyFund surplus
      ({ s with debts := r.1, emergencyFund := r.2.1,
                totalInterest := s.totalInterest + r.2.2.1 }, r.2.2.2)
    | .EMERGENCY =>
      let c := min surplus (eTarget - s.emergencyFund)
      ({ s with emergencyFund := s.emergencyFund + c }, [])
    | .INVESTING =>
      let growth := s.investment * (wYield / 12)
      let tax := growth * p.tax_rate
      ({ s with investment := s.investment + (growth - tax) + surplus,
                totalTaxes := s.totalTaxes + tax }, [])
  else (s, [])

/-- One iteration of the month loop: escalate, observe (surplus, totals,
phase), record the snapshot from the pre-allocation state, then allocate. -/
def stepMonth (p : Profile) (eTarget wYield : ℚ) (month : ℕ) (s0 : RunState) :
    RunState × Snapshot × List PayoffEvent :=
  let s := escalate p month s0
  let surplus := s.income - s.expenses
  let totalDebt := totalActiveDebt s.debts
  let phase := classify totalDebt s.emergencyFund eTarget
  let netWorth := s.investment + s.emergencyFund - totalDebt
  let snap : Snapshot :=
    { month := month, year := round2 ((month : ℚ) / 12),
      netWorth := round2 netWorth, phase := phase,
      income := round2 s.income, expenses := round2 s.expenses,
      totalDebt := round2 totalDebt, emergencyFund := round2 s.emergencyFund,
      investment := round2 s.investment, interestPaid := round2 s.totalInterest,
      taxesPaid := round2 s.totalTaxes }
  let r := allocate p eTarget wYield month phase surplus s
  (r.1, snap, r.2)

/-- The working copy of the input ledger (the copy constructor drops any
payoff marker) together with the zero-initialised accumulators. -/
def initState (p : Profile) (debts : List Creditor) : RunState :=
  { debts := debts.map fun c =>
      { name := c.name, balance := c.balance, interest_rate := c.interest_rate,
        min_payment := c.min_payment, payoff_month := none },
    income := p.income, expenses := p.expenses,
    emergencyFund := 0, investment := 0, totalInterest := 0, totalTaxes := 0 }

/-- `weighted_yield`, computed once from the configuration. -/
def weightedYield (p : Profile) : ℚ :=
  p.stock_ratio * p.stock_yield + (1 - p.stock_ratio) * p.bond_yield

/-- Run the first `n` months (months `0, 1, ..., n-1`), returning the final
state and the accumulated snapshot and payoff lists. -/
def runMonths (p : Profile) (eTarget wYield : ℚ) (s0 : RunState) :
    ℕ → RunState × List Snapshot × List PayoffEvent
  | 0 => (s0, [], [])
  | n + 1 =>
    let r := runMonths p eTarget wYield s0 n
    let st := stepMonth p eTarget wYield n r.1
    (st.1, r.2.1 ++ [st.2.1], r.2.2 ++ st.2.2)

/-- `run_projection` including the final state: `e_target` and
`weighted_yield` are computed once before the loop, and the loop covers
months `0 .. years*12` inclusive. -/
def runFull (p : Profile) (debts : List Creditor) (years : ℕ) :
    RunState × List Snapshot × List PayoffEvent :=
  runMonths p (p.emergency_months * p.expenses) (weightedYield p)
    (initState p debts) (years * 12 + 1)

/-- `InvestmentEngine.run_projection`: the returned snapshot series and
payoff event list. -/
def runProjection (p : Profile) (debts : List Creditor) (years : ℕ) :
    List Snapshot × List PayoffEvent :=
  (runFull p debts years).2

/-- `class InvestmentEngine`: its only state is the profile dictionary. -/
structure InvestmentEngine where
  p : Profile
deriving DecidableEq, Repr

/-- `InvestmentEngine.__init__(self, p)`: stores the profile verbatim. -/
def InvestmentEngine.mk' (p : Profile) : InvestmentEngine := ⟨p⟩

/-- Method form of `run_projection` on a constructed engine. -/
def InvestmentEngine.run (e : InvestmentEngine) (debts : List Creditor)
    (years : ℕ) : List Snapshot × List PayoffEvent :=
  runProjection e.p debts years

/-- The number of creditors whose payoff marker has been set. -/
def paidCount (ds : List Creditor) : ℕ :=
  (ds.filter fun d => d.payoff_month.isSome).length

/-- The data-model invariant on a ledger: nonnegative balances, rates and
minimum payments. -/
def LedgerNonneg (ds : List Creditor) : Prop :=
  ∀ d ∈ ds, 0 ≤ d.balance ∧ 0 ≤ d.interest_rate ∧ 0 ≤ d.min_payment

/-- The flagged-ledger form of `LedgerNonneg`. -/
def LedgerNonnegF (l : List (Creditor × Bool)) : Prop :=
  ∀ q ∈ l, 0 ≤ q.1.balance ∧ 0 ≤ q.1.interest_rate ∧ 0 ≤ q.1.min_payment

/-- The run invariant behind the payoff marker: a creditor whose marker is
set carries a zero balance. -/
def PayoffInv (ds : List Creditor) : Prop :=
  ∀ d ∈ ds, d.payoff_month.isSome → d.balance = 0

/-- The flagged-ledger form of `PayoffInv`: a marked creditor has zero
balance and an inactive flag. -/
def PayoffInvF (l : List (Creditor × Bool)) : Prop :=
  ∀ q ∈ l, q.1.payoff_month.isSome → q.1.balance = 0 ∧ q.2 = false

/-- The state at the start of month `m`'s iteration (before escalation). -/
def stateAt (p : Profile) (debts : List Creditor) (m : ℕ) : RunState :=
  (runMonths p (p.emergency_months * p.expenses) (weightedYield p)
    (initState p debts) m).1

/-- The snapshot recorded for month `m`. -/
def snapAt (p : Profile) (debts : List Creditor) (m : ℕ) : Snapshot :=
  (stepMonth p (p.emergency_months * p.expenses) (weightedYield p) m
    (stateAt p debts m)).2.1

/-! Concrete inputs used below to exercise the engine. -/

/-- A debt-free profile whose emergency fund reaches its start-of-run target
before the first annual expense escalation. -/
def pTarget : Profile :=
  { income := 2000, expenses := 1000, emergency_months := 3,
    stock_yield := 1/10, bond_yield := 1/25, stock_ratio := 4/5,
    inflation := 3/100, tax_rate := 3/20, annual_raise := 1/50,
    strategy := "Avalanche" }

/-- A profile tuned so that investment and emergency fund both carry
sub-cent fractions of 0.004 at month 4. -/
def pRound : Profile :=
  { income := 2000, expenses := 1000, emergency_months := 1/250000,
    stock_yield := 1/10, bond_yield := 3/62500, stock_ratio := 0,
    inflation := 0, tax_rate := 0, annual_raise := 0,
    strategy := "Avalanche" }

/-- A profile whose monthly surplus (50) is below the first month's interest
accrual (100) on `dGrow`. -/
def pGrow : Profile :=
  { income := 1050, expenses := 1000, emergency_months := 3,
    stock_yield := 1/10, bond_yield := 1/25, stock_ratio := 4/5,
    inflation := 3/100, tax_rate := 3/20, annual_raise := 1/50,
    strategy := "Avalanche" }

/-- One creditor accruing 100 of interest in the first month. -/
def dGrow : List Creditor := [⟨"Card", 10000, 12/100, 10, none⟩]

/-- A profile with negative income and `stock_ratio`/`tax_rate` outside
`[0,1]`. -/
def pBad : Profile :=
  { income := -100, expenses := 3000, emergency_months := 3,
    stock_yield := 1/10, bond_yield := 1/25, stock_ratio := 5,
    inflation := 3/100, tax_rate := -1, annual_raise := 1/50,
    strategy := "Avalanche" }

/-- The profile of the spec's worked scenario. -/
def pWorked : Profile :=
  { income := 5000, expenses := 3000, emergency_months := 3,
    stock_yield := 1/10, bond_yield := 1/25, stock_ratio := 4/5,
    inflation := 3/100, tax_rate := 3/20, annual_raise := 1/50,
    strategy := "Avalanche" }

/-- The single creditor of the spec's worked scenario. -/
def dWorked : List Creditor := [⟨"Card", 10000, 20/100, 300, none⟩]

/-- A creditor cleared in full during month 1 of a `pTarget` run. -/
def dPaid : List Creditor := [⟨"Loan", 500, 12/100, 100, none⟩]

/-- A small two-creditor ledger for exercising the payment ordering. -/
def dTwo : List Creditor :=
  [⟨"A", 400, 10/100, 20, none⟩, ⟨"B", 300, 30/100, 20, none⟩]

/-- `pTarget` with an unrecognized strategy string. -/
def pOdd : Profile := { pTarget with strategy := "Hybrid" }

/-! ## Basic lemmas about the month loop -/

theorem escalate_debts (p : Profile) (m : ℕ) (s : RunState) :
    (escalate p m s).debts = s.debts := by
  unfold escalate; split <;> rfl

theorem escalate_emergencyFund (p : Profile) (m : ℕ) (s : RunState) :
    (escalate p m s).emergencyFund = s.emergencyFund := by
  unfold escalate; split <;> rfl

theorem escalate_investment (p : Profile) (m : ℕ) (s : RunState) :
    (escalate p m s).investment = s.investment := by
  unfold escalate; split <;> rfl

theorem runMonths_succ (p : Profile) (eT wY : ℚ) (s0 : RunState) (n : ℕ) :
    runMonths p eT wY s0 (n + 1) =
      ((stepMonth p eT wY n (runMonths p eT wY s0 n).1).1,
       (runMonths p eT wY s0 n).2.1 ++
         [(stepMonth p eT wY n (runMonths p eT wY s0 n).1).2.1],
       (runMonths p eT wY s0 n).2.2 ++
         (stepMonth p eT wY n (runMonths p eT wY s0 n).1).2.2) := rfl

theorem snaps_length (p : Profile) (eT wY : ℚ) (s0 : RunState) (n : ℕ) :
    (runMonths p eT wY s0 n).2.1.length = n := by
  induction n with
  | zero => rfl
  | succ n ih => simp [runMonths_succ, ih]

theorem stateAt_succ (p : Profile) (ds : List Creditor) (m : ℕ) :
    stateAt p ds (m + 1) =
      (stepMonth p (p.emergency_months * p.expenses) (weightedYield p) m
        (stateAt p ds m)).1 := rfl

theorem runMonths_get?_snap (p : Profile) (eT wY : ℚ) (s0 : RunState) :
    ∀ n m, m < n →
      (runMonths p eT wY s0 n).2.1.get? m =
        some (stepMonth p eT wY m (runMonths p eT wY s0 m).1).2.1 := by
  intro n
  induction n with
  | zero => intro m h; exact absurd h (Nat.not_lt_zero m)
  | succ n ih =>
    intro m h
    rw [runMonths_succ]
    rcases Nat.lt_succ_iff_lt_or_eq.mp h with h' | h'
    · rw [List.get?_append (by simpa [snaps_length] using h')]
      exact ih m h'
    · subst h'
      rw [List.get?_append_right (by simp [snaps_length])]
      simp [snaps_length]

theorem runProjection_get?_snap (p : Profile) (ds : List Creditor) (y m : ℕ)
    (h : m < y * 12 + 1) :
    (runProjection p ds y).1.get? m = some (snapAt p ds m) :=
  runMonths_get?_snap p (p.emergency_months * p.expenses) (weightedYield p)
    (initState p ds) (y * 12 + 1) m h

/-! ## C5 — the phase classifier rule -/

/-- C5: the phase classifier returns Debt when total_debt > 0, otherwise
Emergency when the fund is strictly below the target, otherwise Investing;
in particular a fund exactly equal to its target classifies as Investing. -/
theorem classify_rule (td ef et : ℚ) :
    (0 < td → classify td ef et = Phase.DEBT) ∧
    (td ≤ 0 → ef < et → classify td ef et = Phase.EMERGENCY) ∧
    (td ≤ 0 → et ≤ ef → classify td ef et = Phase.INVESTING) := by
  refine ⟨fun h => ?_, fun h h2 => ?_, fun h h2 => ?_⟩
  · simp [classify, h]
  · simp [classify, not_lt.mpr h, h2]
  · simp [classify, not_lt.mpr h, not_lt.mpr h2]

/-- Witness for `classify_rule`, including a fund exactly at its target. -/
theorem classify_rule_witness :
    classify 1 0 0 = Phase.DEBT ∧ classify 0 3 5 = Phase.EMERGENCY ∧
    classify 0 5 5 = Phase.INVESTING :=
  ⟨(classify_rule 1 0 0).1 (by norm_num),
   (classify_rule 0 3 5).2.1 (by norm_num) (by norm_num),
   (classify_rule 0 5 5).2.2 (by norm_num) (by norm_num)⟩

/-! ## C4 — engine construction -/

/-- C4 counterexample: the constructor stores the profile verbatim — an
out-of-range `stock_ratio` is not clamped, a negative `tax_rate` and a
negative income are not rejected, and the projection still returns the full
snapshot series. -/
theorem construction_no_validation_cex :
    (InvestmentEngine.mk' pBad).p.stock_ratio = 5 ∧
    ¬ (InvestmentEngine.mk' pBad).p.stock_ratio ≤ 1 ∧
    (InvestmentEngine.mk' pBad).p.tax_rate = -1 ∧
    (InvestmentEngine.mk' pBad).p.income = -100 ∧
    ((InvestmentEngine.mk' pBad).run [] 1).1.length = 13 := by
  refine ⟨rfl, by norm_num [InvestmentEngine.mk', pBad], rfl, rfl, ?_⟩
  simpa [InvestmentEngine.run, runProjection, runFull] using
    snaps_length pBad (pBad.emergency_months * pBad.expenses)
      (weightedYield pBad) (initState pBad []) 13

/-- C4 (amended): engine construction performs no validation and no
clamping — the profile is stored unchanged for every input, including
out-of-range ratios and negative values, and the projection always runs to
completion over the full horizon with no error. -/
theorem construction_stores_profile_verbatim (p : Profile) (ds : List Creditor)
    (y : ℕ) :
    (InvestmentEngine.mk' p).p = p ∧
    ((InvestmentEngine.mk' p).run ds y).1.length = y * 12 + 1 :=
  ⟨rfl, by
    simpa [InvestmentEngine.run, runProjection, runFull] using
      snaps_length p (p.emergency_months * p.expenses) (weightedYield p)
        (initState p ds) (y * 12 + 1)⟩

/-! ## C8 — run length and frozen months -/

/-- C8: the snapshot series has length horizon_months + 1; month 0 and any
month whose (escalated) surplus is non-positive leave the allocation state
untouched (beyond escalation itself) and produce no payoff events, while
still contributing a snapshot. -/
theorem run_length_and_frozen_months (p : Profile) (ds : List Creditor) (y : ℕ) :
    (runProjection p ds y).1.length = y * 12 + 1 ∧
    ∀ eT wY m s,
      ((escalate p m s).income - (escalate p m s).expenses ≤ 0 ∨ m = 0) →
      (stepMonth p eT wY m s).1 = escalate p m s ∧
      (stepMonth p eT wY m s).2.2 = [] := by
  constructor
  · simpa [runProjection, runFull] using
      snaps_length p (p.emergency_months * p.expenses) (weightedYield p)
        (initState p ds) (y * 12 + 1)
  · intro eT wY m s h
    have hg : ¬ (0 < m ∧
        (escalate p m s).expenses < (escalate p m s).income) := by
      rcases h with h | h
      · exact fun hc => absurd (sub_pos.mpr hc.2) (not_lt.mpr h)
      · subst h; exact fun hc => Nat.lt_irrefl 0 hc.1
    constructor <;> simp [stepMonth, allocate, hg]

/-- Witness for `run_length_and_frozen_months` at month 0 of a concrete run. -/
theorem run_length_witness :
    (runProjection pTarget [] 0).1.length = 1 ∧
    (stepMonth pTarget 0 0 0 (initState pTarget [])).1 =
      escalate pTarget 0 (initState pTarget []) ∧
    (stepMonth pTarget 0 0 0 (initState pTarget [])).2.2 = [] :=
  ⟨(run_length_and_frozen_months pTarget [] 0).1,
   ((run_length_and_frozen_months pTarget [] 0).2 0 0 0 (initState pTarget [])
     (Or.inr rfl)).1,
   ((run_length_and_frozen_months pTarget [] 0).2 0 0 0 (initState pTarget [])
     (Or.inr rfl)).2⟩

/-! ## C1 — the emergency target is fixed at the start of the run -/

/-- C1 counterexample: with `pTarget` the fund reaches the initial target
3000 before month 12; at month 12 expenses escalate to 1030, so
emergency_months × current expenses = 3090, yet the recorded phase is
Investing — the classifier applied to the recomputed target would give
Emergency instead. -/
theorem target_not_recomputed_cex :
    ((runProjection pTarget [] 1).1.get? 12).map
        (fun s => (s.phase, s.emergencyFund, s.expenses, s.totalDebt)) =
      some (Phase.INVESTING, 3000, 1030, 0) ∧
    classify 0 3000 (pTarget.emergency_months * 1030) = Phase.EMERGENCY ∧
    Phase.INVESTING ≠ Phase.EMERGENCY :=
  ⟨by decide, by decide, by decide⟩

/-- C1 (amended): the emergency target is computed once before the loop as
emergency_months × the *initial* expenses, and every month's phase is
classified against that fixed target, not against the escalated expenses. -/
theorem target_fixed_at_start (p : Profile) (ds : List Creditor) (y m : ℕ)
    (h : m < y * 12 + 1) :
    (runProjection p ds y).1.get? m = some (snapAt p ds m) ∧
    (snapAt p ds m).phase =
      classify (totalActiveDebt (stateAt p ds m).debts)
        (stateAt p ds m).emergencyFund (p.emergency_months * p.expenses) := by
  refine ⟨runProjection_get?_snap p ds y m h, ?_⟩
  simp [snapAt, stepMonth, escalate_debts, escalate_emergencyFund]

/-- Witness for `target_fixed_at_start` at month 0 of a concrete run. -/
theorem target_fixed_witness :
    (runProjection pTarget [] 0).1.get? 0 = some (snapAt pTarget [] 0) ∧
    (snapAt pTarget [] 0).phase =
      classify (totalActiveDebt (stateAt pTarget [] 0).debts)
        (stateAt pTarget [] 0).emergencyFund
        (pTarget.emergency_months * pTarget.expenses) :=
  target_fixed_at_start pTarget [] 0 0 (by norm_num)

/-! ## C2 — the net-worth identity and rounding -/

/-- C2 counterexample: a run where the recorded (rounded) fields satisfy
net_worth = 2000.01 but investment + emergency_fund − total_debt =
2000 + 0 − 0 = 2000: the identity fails on the rounded snapshot fields. -/
theorem rounded_identity_cex :
    ((runProjection pRound [] 1).1.get? 4).map
        (fun s => (s.netWorth, s.investment, s.emergencyFund, s.totalDebt)) =
      some (200001/100, 2000, 0, 0) ∧
    (200001 : ℚ) / 100 ≠ 2000 + 0 - 0 :=
  ⟨by decide, by decide⟩

/-- C2 (amended): the recorded net_worth is the 2-decimal rounding of the
exact (unrounded) investment + emergency_fund − total_debt, and each of the
other three fields is the 2-decimal rounding of its own unrounded value; the
identity holds exactly on the unrounded state, not among the rounded
fields. -/
theorem networth_identity_unrounded (p : Profile) (ds : List Creditor)
    (y m : ℕ) (h : m < y * 12 + 1) :
    (runProjection p ds y).1.get? m = some (snapAt p ds m) ∧
    (snapAt p ds m).netWorth =
      round2 ((stateAt p ds m).investment + (stateAt p ds m).emergencyFund -
        totalActiveDebt (stateAt p ds m).debts) ∧
    (snapAt p ds m).investment = round2 (stateAt p ds m).investment ∧
    (snapAt p ds m).emergencyFund = round2 (stateAt p ds m).emergencyFund ∧
    (snapAt p ds m).totalDebt =
      round2 (totalActiveDebt (stateAt p ds m).debts) := by
  refine ⟨runProjection_get?_snap p ds y m h, ?_, ?_, ?_, ?_⟩ <;>
    simp [snapAt, stepMonth, escalate_debts, escalate_emergencyFund,
      escalate_investment]

/-- Witness for `networth_identity_unrounded` at month 0 of a concrete run. -/
theorem networth_identity_witness :
    (runProjection pRound [] 0).1.get? 0 = some (snapAt pRound [] 0) ∧
    (snapAt pRound [] 0).netWorth =
      round2 ((stateAt pRound [] 0).investment +
        (stateAt pRound [] 0).emergencyFund -
        totalActiveDebt (stateAt pRound [] 0).debts) ∧
    (snapAt pRound [] 0).investment = round2 (stateAt pRound [] 0).investment ∧
    (snapAt pRound [] 0).emergencyFund =
      round2 (stateAt pRound [] 0).emergencyFund ∧
    (snapAt pRound [] 0).totalDebt =
      round2 (totalActiveDebt (stateAt pRound [] 0).debts) :=
  networth_identity_unrounded pRound [] 0 0 (by norm_num)

/-! ## C6 — the worked scenario -/

/-- C6: in the spec's worked scenario, month 1's allocation accrues
10000 × 0.20/12 = 500/3 (166.67 at 2 decimals) of interest, the running
balance passes through 10166.67 and 9866.67 (2-decimal views) after interest
and the 300 minimum payment, and the 1700 extra payment leaves 24500/3
(8166.67), the total debt shown in month 2's snapshot. -/
theorem worked_scenario_month1 :
    ((runProjection pWorked dWorked 1).1.get? 1).map Snapshot.totalDebt =
      some 10000 ∧
    ((runProjection pWorked dWorked 1).1.get? 2).map Snapshot.totalDebt =
      some (816667/100) ∧
    (stateAt pWorked dWorked 2).debts.map Creditor.balance = [24500/3] ∧
    (stateAt pWorked dWorked 2).totalInterest = 500/3 ∧
    round2 (10000 * ((20/100) / 12)) = 16667/100 ∧
    round2 (10000 + 500/3) = 1016667/100 ∧
    round2 (10000 + 500/3 - 300) = 986667/100 ∧
    round2 (10000 + 500/3 - 300 - 1700) = 816667/100 :=
  ⟨by decide, by decide, by decide, by decide, by decide, by decide, by decide,
   by decide⟩

/-! ## C9 — unrecognized strategies fall back to Snowball ordering -/

theorem sortActive_of_ne (strategy : String) (h : strategy ≠ "Avalanche")
    (ds : List Creditor) : sortActive strategy ds = sortActive "Snowball" ds := by
  unfold sortActive
  rw [if_neg h, if_neg (by decide)]

theorem debtAlloc_of_ne (strategy : String) (h : strategy ≠ "Avalanche")
    (eT : ℚ) (month : ℕ) (ds : List Creditor) (fund surplus : ℚ) :
    debtAlloc strategy eT month ds fund surplus =
      debtAlloc "Snowball" eT month ds fund surplus := by
  simp only [debtAlloc, sortActive_of_ne strategy h]

theorem escalate_strategy (p : Profile) (x : String) (m : ℕ) (s : RunState) :
    escalate { p with strategy := x } m s = escalate p m s := rfl

theorem allocate_strategy_snowball (p : Profile) (h : p.strategy ≠ "Avalanche")
    (eT wY : ℚ) (month : ℕ) (phase : Phase) (surplus : ℚ) (s : RunState) :
    allocate p eT wY month phase surplus s =
      allocate { p with strategy := "Snowball" } eT wY month phase surplus s := by
  simp only [allocate, debtAlloc_of_ne p.strategy h]

theorem stepMonth_strategy_snowball (p : Profile) (h : p.strategy ≠ "Avalanche")
    (eT wY : ℚ) (month : ℕ) (s : RunState) :
    stepMonth p eT wY month s =
      stepMonth { p with strategy := "Snowball" } eT wY month s := by
  simp only [stepMonth, allocate_strategy_snowball p h, escalate_strategy]

theorem runMonths_strategy_snowball (p : Profile) (h : p.strategy ≠ "Avalanche")
    (eT wY : ℚ) (s0 : RunState) :
    ∀ n, runMonths p eT wY s0 n =
      runMonths { p with strategy := "Snowball" } eT wY s0 n := by
  intro n
  induction n with
  | zero => rfl
  | succ n ih =>
    rw [runMonths_succ, runMonths_succ, ← ih, ← stepMonth_strategy_snowball p h]

/-- C9: any strategy string other than "Avalanche" produces exactly the same
projection as "Snowball": the extra-payment pass deterministically uses the
ascending-balance ordering and no error is raised. -/
theorem strategy_fallback_snowball (p : Profile) (ds : List Creditor) (y : ℕ)
    (h : p.strategy ≠ "Avalanche") :
    runProjection p ds y = runProjection { p with strategy := "Snowball" } ds y := by
  unfold runProjection runFull
  exact congrArg (fun r => r.2)
    (runMonths_strategy_snowball p h (p.emergency_months * p.expenses)
      (weightedYield p) (initState p ds) (y * 12 + 1))

/-- Witness for `strategy_fallback_snowball` with the unrecognized strategy
string "Hybrid". -/
theorem strategy_fallback_witness :
    runProjection pOdd dTwo 1 =
      runProjection { pOdd with strategy := "Snowball" } dTwo 1 :=
  strategy_fallback_snowball pOdd dTwo 1 (by decide)

/-! ## C10 — at most one payoff event per creditor -/

theorem paidCount_cons (d : Creditor) (ds : List Creditor) :
    paidCount (d :: ds) =
      (if d.payoff_month.isSome then 1 else 0) + paidCount ds := by
  by_cases h : d.payoff_month.isSome <;>
    simp [paidCount, List.filter_cons, h, Nat.add_comm]

theorem paidCount_le_length (ds : List Creditor) : paidCount ds ≤ ds.length :=
  List.length_filter_le _ _

theorem paidCount_set :
    ∀ (ds : List Creditor) (i : ℕ) (d d' : Creditor), ds.get? i = some d →
      paidCount (ds.set i d') + (if d.payoff_month.isSome then 1 else 0) =
        paidCount ds + (if d'.payoff_month.isSome then 1 else 0) := by
  intro ds
  induction ds with
  | nil => intro i d d' h; simp [List.get?] at h
  | cons a as ih =>
    intro i d d' h
    cases i with
    | zero =>
      simp only [List.get?] at h
      injection h with h
      subst h
      simp only [List.set, paidCount_cons]
      omega
    | succ i =>
      simp only [List.get?] at h
      have := ih i d d' h
      simp only [List.set, paidCount_cons]
      omega

theorem accrue_paid : ∀ l : List (Creditor × Bool),
    paidCount ((accrue l).1.map Prod.fst) = paidCount (l.map Prod.fst) := by
  intro l
  induction l with
  | nil => rfl
  | cons q rest ih =>
    obtain ⟨d, act⟩ := q
    cases act <;> simp [accrue, paidCount_cons, ih]

theorem minPay_paid (month : ℕ) : ∀ (l : List (Creditor × Bool)) (rem : ℚ),
    paidCount (minPayPass month l rem).1 =
      paidCount (l.map Prod.fst) + (minPayPass month l rem).2.2.length := by
  intro l
  induction l with
  | nil => intro rem; rfl
  | cons q rest ih =>
    obtain ⟨d, act⟩ := q
    intro rem
    simp only [minPayPass]
    split
    next hact =>
      split
      next hz =>
        simp [paidCount_cons, hz.2, ih]
        omega
      next hz =>
        simp [paidCount_cons, ih]
        omega
    next hact =>
      simp [paidCount_cons, ih]
      omega

theorem extraLoop_paid (month : ℕ) :
    ∀ (idxs : List (ℕ × Creditor)) (ds : List Creditor) (rem : ℚ),
      paidCount (extraLoop month idxs ds rem).1 =
        paidCount ds + (extraLoop month idxs ds rem).2.2.length := by
  intro idxs
  induction idxs with
  | nil => intro ds rem; rfl
  | cons q rest ih =>
    obtain ⟨i, c⟩ := q
    intro ds rem
    simp only [extraLoop]
    split
    next => simp
    next hr =>
      cases hds : ds.get? i with
      | none => simp only [hds]; exact ih ds rem
      | some d =>
        simp only [hds]
        split
        next hz =>
          have hset := paidCount_set ds i d
            { d with balance := 0, payoff_month := some month } hds
          simp [hz.2] at hset
          simp only [ih, List.length_cons]
          omega
        next hz =>
          have hset := paidCount_set ds i d
            { d with balance := d.balance - min rem d.balance } hds
          simp at hset
          simp only [ih]
          omega

theorem flagOf_map_fst (ds : List Creditor) : (flagOf ds).map Prod.fst = ds := by
  induction ds with
  | nil => rfl
  | cons d ds ih => simpa [flagOf] using ih

theorem debtAlloc_paid (strategy : String) (eT : ℚ) (month : ℕ)
    (ds : List Creditor) (fund surplus : ℚ) :
    paidCount (debtAlloc strategy eT month ds fund surplus).1 =
      paidCount ds + (debtAlloc strategy eT month ds fund surplus).2.2.2.length := by
  simp only [debtAlloc]
  split
  · simp [extraLoop_paid, minPay_paid, accrue_paid, flagOf_map_fst,
      List.length_append]
    omega
  · simp [minPay_paid, accrue_paid, flagOf_map_fst]

theorem allocate_paid (p : Profile) (eT wY : ℚ) (month : ℕ) (phase : Phase)
    (surplus : ℚ) (s : RunState) :
    paidCount (allocate p eT wY month phase surplus s).1.debts =
      paidCount s.debts + (allocate p eT wY month phase surplus s).2.length := by
  unfold allocate
  split
  · cases phase <;> simp [debtAlloc_paid]
  · simp

theorem stepMonth_paid (p : Profile) (eT wY : ℚ) (month : ℕ) (s : RunState) :
    paidCount (stepMonth p eT wY month s).1.debts =
      paidCount s.debts + (stepMonth p eT wY month s).2.2.length := by
  have := allocate_paid p eT wY month
    (classify (totalActiveDebt (escalate p month s).debts)
      (escalate p month s).emergencyFund eT)
    ((escalate p month s).income - (escalate p month s).expenses)
    (escalate p month s)
  simpa [stepMonth, escalate_debts] using this

theorem runMonths_paid (p : Profile) (eT wY : ℚ) (s0 : RunState) :
    ∀ n, paidCount (runMonths p eT wY s0 n).1.debts =
      paidCount s0.debts + (runMonths p eT wY s0 n).2.2.length := by
  intro n
  induction n with
  | zero => simp [runMonths]
  | succ n ih =>
    rw [runMonths_succ]
    simp [stepMonth_paid, List.length_append, ih]
    omega

theorem accrue_length : ∀ l : List (Creditor × Bool),
    (accrue l).1.length = l.length := by
  intro l
  induction l with
  | nil => rfl
  | cons q rest ih =>
    obtain ⟨d, act⟩ := q
    cases act <;> simp [accrue, ih]

theorem minPay_length (month : ℕ) : ∀ (l : List (Creditor × Bool)) (rem : ℚ),
    (minPayPass month l rem).1.length = l.length := by
  intro l
  induction l with
  | nil => intro rem; rfl
  | cons q rest ih =>
    obtain ⟨d, act⟩ := q
    intro rem
    simp only [minPayPass]
    split
    next hact => split <;> simp [ih]
    next hact => simp [ih]

theorem extraLoop_length (month : ℕ) :
    ∀ (idxs : List (ℕ × Creditor)) (ds : List Creditor) (rem : ℚ),
      (extraLoop month idxs ds rem).1.length = ds.length := by
  intro idxs
  induction idxs with
  | nil => intro ds rem; rfl
  | cons q rest ih =>
    obtain ⟨i, c⟩ := q
    intro ds rem
    simp only [extraLoop]
    split
    next => simp
    next hr =>
      cases hds : ds.get? i with
      | none => simp only [hds]; exact ih ds rem
      | some d =>
        simp only [hds]
        split <;> simp [ih]

theorem debtAlloc_length (strategy : String) (eT : ℚ) (month : ℕ)
    (ds : List Creditor) (fund surplus : ℚ) :
    (debtAlloc strategy eT month ds fund surplus).1.length = ds.length := by
  simp only [debtAlloc]
  split <;>
    simp [extraLoop_length, minPay_length, accrue_length, flagOf, List.length_map]

theorem allocate_length (p : Profile) (eT wY : ℚ) (month : ℕ) (phase : Phase)
    (surplus : ℚ) (s : RunState) :
    (allocate p eT wY month phase surplus s).1.debts.length = s.debts.length := by
  unfold allocate
  split
  · cases phase <;> simp [debtAlloc_length]
  · simp

theorem stepMonth_length (p : Profile) (eT wY : ℚ) (month : ℕ) (s : RunState) :
    (stepMonth p eT wY month s).1.debts.length = s.debts.length := by
  have := allocate_length p eT wY month
    (classify (totalActiveDebt (escalate p month s).debts)
      (escalate p month s).emergencyFund eT)
    ((escalate p month s).income - (escalate p month s).expenses)
    (escalate p month s)
  simpa [stepMonth, escalate_debts] using this

theorem runMonths_length (p : Profile) (eT wY : ℚ) (s0 : RunState) :
    ∀ n, (runMonths p eT wY s0 n).1.debts.length = s0.debts.length := by
  intro n
  induction n with
  | zero => rfl
  | succ n ih => rw [runMonths_succ]; simp [stepMonth_length, ih]

theorem initState_paid (p : Profile) (ds : List Creditor) :
    paidCount (initState p ds).debts = 0 := by
  simp only [initState]
  induction ds with
  | nil => rfl
  | cons d ds ih => simpa [paidCount_cons] using ih

theorem initState_length (p : Profile) (ds : List Creditor) :
    (initState p ds).debts.length = ds.length := by
  simp [initState]

/-- C10: the run's payoff event list contains exactly one event per creditor
whose payoff marker ends up set — events are only recorded on the unset → set
transition, markers are never unset, so no creditor generates two events and
the event count never exceeds the number of creditors. -/
theorem payoff_event_per_creditor_once (p : Profile) (ds : List Creditor)
    (y : ℕ) :
    (runProjection p ds y).2.length = paidCount (runFull p ds y).1.debts ∧
    (runFull p ds y).1.debts.length = ds.length ∧
    (runProjection p ds y).2.length ≤ ds.length := by
  have hpaid := runMonths_paid p (p.emergency_months * p.expenses)
    (weightedYield p) (initState p ds) (y * 12 + 1)
  have hlen := runMonths_length p (p.emergency_months * p.expenses)
    (weightedYield p) (initState p ds) (y * 12 + 1)
  have h0 := initState_paid p ds
  have hl0 := initState_length p ds
  refine ⟨?_, ?_, ?_⟩
  · simp only [runProjection, runFull] at *
    omega
  · simp only [runProjection, runFull] at *
    omega
  · have hle := paidCount_le_length (runFull p ds y).1.debts
    simp only [runProjection, runFull] at *
    omega

/-! ## C7 — once the payoff marker is set, the balance stays exactly 0 -/

theorem list_get_set_other {α : Type} :
    ∀ (l : List α) (i j : ℕ) (b : α), i ≠ j →
      (l.set i b).get? j = l.get? j := by
  intro l
  induction l with
  | nil => intro i j b h; simp
  | cons a as ih =>
    intro i j b h
    cases i with
    | zero =>
      cases j with
      | zero => exact absurd rfl h
      | succ j => rfl
    | succ i =>
      cases j with
      | zero => rfl
      | succ j =>
        simpa [List.set, List.get?] using
          ih i j b (fun hh => h (by rw [hh]))

theorem accrue_get?_false :
    ∀ (l : List (Creditor × Bool)) (i : ℕ) (d : Creditor),
      l.get? i = some (d, false) → (accrue l).1.get? i = some (d, false) := by
  intro l
  induction l with
  | nil => intro i d h; simp [List.get?] at h
  | cons q rest ih =>
    obtain ⟨e, act⟩ := q
    intro i d h
    cases i with
    | zero =>
      simp only [List.get?] at h
      injection h with h
      cases act with
      | false => simpa [accrue] using h
      | true => exact absurd (congrArg Prod.snd h) (by simp)
    | succ i =>
      simp only [List.get?] at h
      cases act <;> simpa [accrue, List.get?] using ih i d h

theorem minPay_get?_false (month : ℕ) :
    ∀ (l : List (Creditor × Bool)) (rem : ℚ) (i : ℕ) (d : Creditor),
      l.get? i = some (d, false) →
      (minPayPass month l rem).1.get? i = some d := by
  intro l
  induction l with
  | nil => intro rem i d h; simp [List.get?] at h
  | cons q rest ih =>
    obtain ⟨e, act⟩ := q
    intro rem i d h
    cases i with
    | zero =>
      simp only [List.get?] at h
      injection h with h
      have hact : act = false := congrArg Prod.snd h
      have he : e = d := congrArg Prod.fst h
      subst hact; subst he
      simp [minPayPass, List.get?]
    | succ i =>
      simp only [List.get?] at h
      simp only [minPayPass]
      split
      next hact =>
        split <;> simpa [List.get?] using ih _ i d h
      next hact => simpa [List.get?] using ih _ i d h

theorem extraLoop_get?_nin (month : ℕ) :
    ∀ (idxs : List (ℕ × Creditor)) (ds : List Creditor) (rem : ℚ) (i : ℕ),
      (∀ q ∈ idxs, q.1 ≠ i) →
      (extraLoop month idxs ds rem).1.get? i = ds.get? i := by
  intro idxs
  induction idxs with
  | nil => intro ds rem i _; rfl
  | cons q rest ih =>
    obtain ⟨j, c⟩ := q
    intro ds rem i hn
    have hji : j ≠ i := hn (j, c) (List.mem_cons_self _ _)
    have hrest : ∀ q ∈ rest, q.1 ≠ i := fun q hq =>
      hn q (List.mem_cons_of_mem _ hq)
    simp only [extraLoop]
    split
    next => rfl
    next hr =>
      cases hds : ds.get? j with
      | none => simp only [hds]; exact ih ds rem i hrest
      | some d =>
        simp only [hds]
        split <;>
          rw [ih _ _ i hrest, list_get_set_other _ j i _ hji]

theorem withIdx_mem :
    ∀ (ds : List Creditor) (k : ℕ) (q : ℕ × Creditor), q ∈ withIdx k ds →
      ∃ j, q.1 = k + j ∧ ds.get? j = some q.2 := by
  intro ds
  induction ds with
  | nil => intro k q h; simp [withIdx] at h
  | cons d rest ih =>
    intro k q h
    simp only [withIdx, List.mem_cons] at h
    rcases h with h | h
    · exact ⟨0, by simp [h], by simp [h, List.get?]⟩
    · obtain ⟨j, hj, hg⟩ := ih (k + 1) q h
      exact ⟨j + 1, by omega, by simpa [List.get?] using hg⟩

theorem sortActive_fst_ne (strategy : String) (ds : List Creditor) (i : ℕ)
    (d : Creditor) (hd : ds.get? i = some d) (hb : ¬ 0 < d.balance) :
    ∀ q ∈ sortActive strategy ds, q.1 ≠ i := by
  intro q hq
  have hmem : q ∈ (withIdx 0 ds).filter fun x => decide (0 < x.2.balance) := by
    unfold sortActive at hq
    split at hq <;>
      exact ((List.perm_insertionSort _ _).mem_iff).mp hq
  rw [List.mem_filter] at hmem
  obtain ⟨hin, hpos⟩ := hmem
  obtain ⟨j, hj, hg⟩ := withIdx_mem ds 0 q hin
  intro hqi
  rw [hqi] at hj
  have hji : j = i := by omega
  rw [hji] at hg
  rw [hd] at hg
  injection hg with hg
  rw [hg] at hb
  exact hb (by simpa using hpos)

theorem debtAlloc_get?_zero (strategy : String) (eT : ℚ) (month : ℕ)
    (ds : List Creditor) (fund surplus : ℚ) (i : ℕ) (d : Creditor)
    (hd : ds.get? i = some d) (hb : d.balance = 0) :
    (debtAlloc strategy eT month ds fund surplus).1.get? i = some d := by
  have hflag : (flagOf ds).get? i = some (d, false) := by
    rw [flagOf, List.get?_map, hd]
    simp [hb]
  have hacc := accrue_get?_false (flagOf ds) i d hflag
  have hmin := minPay_get?_false month (accrue (flagOf ds)).1 surplus i d hacc
  simp only [debtAlloc]
  split
  next =>
    rw [extraLoop_get?_nin month _ _ _ i
      (sortActive_fst_ne strategy _ i d hmin (by rw [hb]; exact lt_irrefl 0))]
    exact hmin
  next => exact hmin

theorem allocate_get?_zero (p : Profile) (eT wY : ℚ) (month : ℕ)
    (phase : Phase) (surplus : ℚ) (s : RunState) (i : ℕ) (d : Creditor)
    (hd : s.debts.get? i = some d) (hb : d.balance = 0) :
    (allocate p eT wY month phase surplus s).1.debts.get? i = some d := by
  have hda := debtAlloc_get?_zero p.strategy eT month s.debts s.emergencyFund
    surplus i d hd hb
  unfold allocate
  split
  · cases phase with
    | DEBT => simpa using hda
    | EMERGENCY => simpa using hd
    | INVESTING => simpa using hd
  · simpa using hd

theorem stepMonth_get?_zero (p : Profile) (eT wY : ℚ) (month : ℕ)
    (s : RunState) (i : ℕ) (d : Creditor)
    (hd : s.debts.get? i = some d) (hb : d.balance = 0) :
    (stepMonth p eT wY month s).1.debts.get? i = some d := by
  have := allocate_get?_zero p eT wY month
    (classify (totalActiveDebt (escalate p month s).debts)
      (escalate p month s).emergencyFund eT)
    ((escalate p month s).income - (escalate p month s).expenses)
    (escalate p month s) i d (by rwa [escalate_debts]) hb
  simpa [stepMonth] using this

theorem flagOf_payoffInvF (ds : List Creditor) (h : PayoffInv ds) :
    PayoffInvF (flagOf ds) := by
  intro q hq hp
  simp only [flagOf, List.mem_map] at hq
  obtain ⟨d, hdm, hde⟩ := hq
  have hb := h d hdm (by rw [← hde] at hp; exact hp)
  constructor
  · rw [← hde]; exact hb
  · rw [← hde]; simp [hb]

theorem accrue_payoffInvF (l : List (Creditor × Bool)) (h : PayoffInvF l) :
    PayoffInvF (accrue l).1 := by
  induction l with
  | nil => exact h
  | cons q rest ih =>
    obtain ⟨d, act⟩ := q
    have hrest : PayoffInvF rest := fun x hx => h x (List.mem_cons_of_mem _ hx)
    have hd := h (d, act) (List.mem_cons_self _ _)
    cases act with
    | false =>
      intro x hx hp
      have hx2 : x ∈ (d, false) :: (accrue rest).1 := hx
      rcases List.mem_cons.mp hx2 with h1 | h1
      · subst h1; exact hd hp
      · exact ih hrest x h1 hp
    | true =>
      intro x hx hp
      have hx2 : x ∈
          ({ d with balance := d.balance + d.balance * (d.interest_rate / 12) },
            true) :: (accrue rest).1 := hx
      rcases List.mem_cons.mp hx2 with h1 | h1
      · subst h1
        simp only at hp
        exact absurd (hd hp).2 (by simp)
      · exact ih hrest x h1 hp

theorem minPay_payoffInv (month : ℕ) :
    ∀ (l : List (Creditor × Bool)) (rem : ℚ), PayoffInvF l →
      PayoffInv (minPayPass month l rem).1 := by
  intro l
  induction l with
  | nil => intro rem _ x hx; simp [minPayPass] at hx
  | cons q rest ih =>
    obtain ⟨d, act⟩ := q
    intro rem h
    have hrest : PayoffInvF rest := fun x hx => h x (List.mem_cons_of_mem _ hx)
    have hd := h (d, act) (List.mem_cons_self _ _)
    simp only [minPayPass]
    split
    next hact =>
      split
      next hz =>
        intro x hx hp
        rcases List.mem_cons.mp hx with hx | hx
        · subst hx; rfl
        · exact ih _ hrest x hx hp
      next hz =>
        intro x hx hp
        rcases List.mem_cons.mp hx with hx | hx
        · subst hx
          simp only at hp
          exact absurd (hd hp).2 (by simp [hact])
        · exact ih _ hrest x hx hp
    next hact =>
      intro x hx hp
      rcases List.mem_cons.mp hx with hx | hx
      · subst hx; exact (hd hp).1
      · exact ih _ hrest x hx hp

theorem extraLoop_payoffInv (month : ℕ) :
    ∀ (idxs : List (ℕ × Creditor)) (ds : List Creditor) (rem : ℚ),
      PayoffInv ds → PayoffInv (extraLoop month idxs ds rem).1 := by
  intro idxs
  induction idxs with
  | nil => intro ds rem h; exact h
  | cons q rest ih =>
    obtain ⟨i, c⟩ := q
    intro ds rem h
    simp only [extraLoop]
    split
    next => exact h
    next hr =>
      cases hds : ds.get? i with
      | none => simp only [hds]; exact ih ds rem h
      | some d =>
        simp only [hds]
        split
        next hz =>
          apply ih
          intro x hx hp
          rcases List.mem_or_eq_of_mem_set hx with hx2 | hx2
          · exact h x hx2 hp
          · subst hx2; rfl
        next hz =>
          apply ih
          intro x hx hp
          rcases List.mem_or_eq_of_mem_set hx with hx2 | hx2
          · exact h x hx2 hp
          · subst hx2
            simp only at hp
            have hb := h d (List.get?_mem hds) hp
            simp only [hb]
            rw [min_eq_right (le_of_lt (lt_of_not_le hr))]
            ring

theorem debtAlloc_payoffInv (strategy : String) (eT : ℚ) (month : ℕ)
    (ds : List Creditor) (fund surplus : ℚ) (h : PayoffInv ds) :
    PayoffInv (debtAlloc strategy eT month ds fund surplus).1 := by
  have hm := minPay_payoffInv month (accrue (flagOf ds)).1 surplus
    (accrue_payoffInvF (flagOf ds) (flagOf_payoffInvF ds h))
  simp only [debtAlloc]
  split
  next => exact extraLoop_payoffInv month _ _ _ hm
  next => exact hm

theorem stepMonth_payoffInv (p : Profile) (eT wY : ℚ) (month : ℕ)
    (s : RunState) (h : PayoffInv s.debts) :
    PayoffInv (stepMonth p eT wY month s).1.debts := by
  have hesc : PayoffInv (escalate p month s).debts := by
    rw [escalate_debts]; exact h
  simp only [stepMonth, allocate]
  split
  · cases hph : classify (totalActiveDebt (escalate p month s).debts)
        (escalate p month s).emergencyFund eT with
    | DEBT => simpa using debtAlloc_payoffInv p.strategy eT month _ _ _ hesc
    | EMERGENCY => simpa using hesc
    | INVESTING => simpa using hesc
  · simpa using hesc

theorem stateAt_payoffInv (p : Profile) (ds : List Creditor) :
    ∀ m, PayoffInv (stateAt p ds m).debts := by
  intro m
  induction m with
  | zero =>
    intro d hd hp
    simp only [stateAt, runMonths, initState, List.mem_map] at hd
    obtain ⟨c, _, hc⟩ := hd
    rw [← hc] at hp
    simp at hp
  | succ m ih =>
    rw [stateAt_succ]
    exact stepMonth_payoffInv p _ _ m (stateAt p ds m) ih

/-- C7: once a creditor's payoff marker is set, that ledger entry is exactly
the same record (balance 0, marker unchanged) at every later month of the
run — neither interest accrual nor any payment pass touches it again. -/
theorem payoff_balance_zero_forever (p : Profile) (ds : List Creditor)
    (m k i : ℕ) (d : Creditor)
    (hd : (stateAt p ds m).debts.get? i = some d)
    (hp : d.payoff_month.isSome) :
    (stateAt p ds (m + k)).debts.get? i = some d ∧ d.balance = 0 := by
  have hb : d.balance = 0 := stateAt_payoffInv p ds m d (List.get?_mem hd) hp
  refine ⟨?_, hb⟩
  induction k with
  | zero => exact hd
  | succ k ih =>
    rw [show m + (k + 1) = (m + k) + 1 from rfl, stateAt_succ]
    exact stepMonth_get?_zero p _ _ (m + k) _ i d ih hb

/-- Witness for `payoff_balance_zero_forever`: the `dPaid` creditor is paid
off in month 1 and its entry is frozen at balance 0 afterwards. -/
theorem payoff_balance_witness :
    (stateAt pTarget dPaid (2 + 1)).debts.get? 0 =
      some ⟨"Loan", 0, 12/100, 100, some 1⟩ ∧
    (Creditor.mk "Loan" 0 (12/100) 100 (some 1)).balance = 0 :=
  payoff_balance_zero_forever pTarget dPaid 2 1 0
    ⟨"Loan", 0, 12/100, 100, some 1⟩ (by decide) (by decide)

/-! ## C3 — debt monotonicity -/

theorem totalBal_nil : totalBal [] = 0 := rfl

theorem totalBal_cons (d : Creditor) (ds : List Creditor) :
    totalBal (d :: ds) = d.balance + totalBal ds := by
  simp [totalBal]

theorem totalBalF_cons (q : Creditor × Bool) (l : List (Creditor × Bool)) :
    totalBalF (q :: l) = q.1.balance + totalBalF l := by
  simp [totalBalF]

theorem totalBal_nonneg (ds : List Creditor)
    (h : ∀ d ∈ ds, 0 ≤ d.balance) : 0 ≤ totalBal ds := by
  induction ds with
  | nil => simp [totalBal]
  | cons d rest ih =>
    rw [totalBal_cons]
    have h1 := h d (List.mem_cons_self _ _)
    have h2 := ih fun x hx => h x (List.mem_cons_of_mem _ hx)
    linarith

theorem totalBal_eq_zero (ds : List Creditor)
    (h : ∀ d ∈ ds, d.balance = 0) : totalBal ds = 0 := by
  induction ds with
  | nil => rfl
  | cons d rest ih =>
    rw [totalBal_cons, h d (List.mem_cons_self _ _),
      ih fun x hx => h x (List.mem_cons_of_mem _ hx)]
    ring

theorem totalActiveDebt_cons (d : Creditor) (ds : List Creditor) :
    totalActiveDebt (d :: ds) =
      (if 0 < d.balance then d.balance else 0) + totalActiveDebt ds := by
  by_cases hb : 0 < d.balance <;> simp [totalActiveDebt, List.filter_cons, hb]

theorem accrualOf_cons (d : Creditor) (ds : List Creditor) :
    accrualOf (d :: ds) =
      (if 0 < d.balance then d.balance * (d.interest_rate / 12) else 0) +
        accrualOf ds := by
  by_cases hb : 0 < d.balance <;> simp [accrualOf, List.filter_cons, hb]

theorem totalActiveDebt_eq_totalBal (ds : List Creditor)
    (h : ∀ d ∈ ds, 0 ≤ d.balance) : totalActiveDebt ds = totalBal ds := by
  induction ds with
  | nil => rfl
  | cons d rest ih =>
    have h1 := h d (List.mem_cons_self _ _)
    have h2 := ih fun x hx => h x (List.mem_cons_of_mem _ hx)
    rw [totalActiveDebt_cons, totalBal_cons, h2]
    by_cases hb : 0 < d.balance
    · rw [if_pos hb]
    · rw [if_neg hb, le_antisymm (not_lt.mp hb) h1]

theorem totalBal_set :
    ∀ (ds : List Creditor) (i : ℕ) (d d' : Creditor), ds.get? i = some d →
      totalBal (ds.set i d') = totalBal ds - d.balance + d'.balance := by
  intro ds
  induction ds with
  | nil => intro i d d' h; simp [List.get?] at h
  | cons a as ih =>
    intro i d d' h
    cases i with
    | zero =>
      simp only [List.get?] at h
      injection h with h
      subst h
      simp only [List.set, totalBal_cons]
      ring
    | succ i =>
      simp only [List.get?] at h
      have := ih i d d' h
      simp only [List.set, totalBal_cons, this]
      ring

theorem accrue_total : ∀ l : List (Creditor × Bool),
    totalBalF (accrue l).1 = totalBalF l + (accrue l).2 := by
  intro l
  induction l with
  | nil => simp [accrue, totalBalF]
  | cons q rest ih =>
    obtain ⟨d, act⟩ := q
    cases act with
    | false =>
      have e1 : accrue ((d, false) :: rest) =
          ((d, false) :: (accrue rest).1, (accrue rest).2) := rfl
      rw [e1, totalBalF_cons, totalBalF_cons, ih]
      ring
    | true =>
      have e1 : accrue ((d, true) :: rest) =
          (({ d with
                balance := d.balance + d.balance * (d.interest_rate / 12) },
              true) :: (accrue rest).1,
            d.balance * (d.interest_rate / 12) + (accrue rest).2) := rfl
      rw [e1, totalBalF_cons, totalBalF_cons, ih]
      dsimp only
      ring

theorem accrue_interest : ∀ ds : List Creditor,
    (accrue (flagOf ds)).2 = accrualOf ds := by
  intro ds
  induction ds with
  | nil => rfl
  | cons d rest ih =>
    have hfl : flagOf (d :: rest) =
        (d, decide (0 < d.balance)) :: flagOf rest := rfl
    by_cases hb : 0 < d.balance
    · have e2 : (accrue ((d, true) :: flagOf rest)).2 =
          d.balance * (d.interest_rate / 12) + (accrue (flagOf rest)).2 := rfl
      rw [hfl, decide_eq_true hb, e2, accrualOf_cons, if_pos hb, ih]
    · have e2 : (accrue ((d, false) :: flagOf rest)).2 =
          (accrue (flagOf rest)).2 := rfl
      rw [hfl, decide_eq_false hb, e2, accrualOf_cons, if_neg hb, ih]
      ring

theorem accrue_nonnegF (l : List (Creditor × Bool)) (h : LedgerNonnegF l) :
    LedgerNonnegF (accrue l).1 := by
  induction l with
  | nil => exact h
  | cons q rest ih =>
    obtain ⟨d, act⟩ := q
    have hrest := ih fun x hx => h x (List.mem_cons_of_mem _ hx)
    have hd := h (d, act) (List.mem_cons_self _ _)
    cases act with
    | false =>
      intro x hx
      have hx2 : x ∈ (d, false) :: (accrue rest).1 := hx
      rcases List.mem_cons.mp hx2 with h1 | h1
      · subst h1; exact hd
      · exact hrest x h1
    | true =>
      intro x hx
      have hx2 : x ∈
          ({ d with balance := d.balance + d.balance * (d.interest_rate / 12) },
            true) :: (accrue rest).1 := hx
      rcases List.mem_cons.mp hx2 with h1 | h1
      · subst h1
        obtain ⟨hb, hr, hm⟩ := hd
        refine ⟨?_, hr, hm⟩
        simp only
        have : 0 ≤ d.balance * (d.interest_rate / 12) := by positivity
        linarith
      · exact hrest x h1

theorem minPay_main (month : ℕ) : ∀ (l : List (Creditor × Bool)) (rem : ℚ),
    LedgerNonnegF l → 0 ≤ rem →
    0 ≤ (minPayPass month l rem).2.1 ∧
    (minPayPass month l rem).2.1 ≤ rem ∧
    totalBal (minPayPass month l rem).1 + rem ≤
      totalBalF l + (minPayPass month l rem).2.1 ∧
    LedgerNonneg (minPayPass month l rem).1 := by
  intro l
  induction l with
  | nil =>
    intro rem _ hrem
    refine ⟨hrem, le_refl rem, ?_, ?_⟩
    · simp [minPayPass, totalBal, totalBalF]
    · intro x hx; simp [minPayPass] at hx
  | cons q rest ih =>
    obtain ⟨d, act⟩ := q
    intro rem hl hrem
    have hrest : LedgerNonnegF rest := fun x hx => hl x (List.mem_cons_of_mem _ hx)
    obtain ⟨hb0, hr0, hm0⟩ := hl (d, act) (List.mem_cons_self _ _)
    simp only [minPayPass]
    split
    next hact =>
      have hpay0 : 0 ≤ min (min d.min_payment d.balance) rem :=
        le_min (le_min hm0 hb0) hrem
      have hpayr : min (min d.min_payment d.balance) rem ≤ rem :=
        min_le_right _ _
      have hpayb : min (min d.min_payment d.balance) rem ≤ d.balance :=
        le_trans (min_le_left _ _) (min_le_right _ _)
      obtain ⟨h1, h2, h3, h4⟩ :=
        ih (rem - min (min d.min_payment d.balance) rem) hrest (by linarith)
      split
      next hz =>
        refine ⟨h1, by linarith, ?_, ?_⟩
        · rw [totalBal_cons, totalBalF_cons]
          simp only
          linarith
        · intro x hx
          rcases List.mem_cons.mp hx with h5 | h5
          · subst h5; exact ⟨le_refl 0, hr0, hm0⟩
          · exact h4 x h5
      next hz =>
        refine ⟨h1, by linarith, ?_, ?_⟩
        · rw [totalBal_cons, totalBalF_cons]
          simp only
          linarith
        · intro x hx
          rcases List.mem_cons.mp hx with h5 | h5
          · subst h5; exact ⟨by simp only; linarith, hr0, hm0⟩
          · exact h4 x h5
    next hact =>
      obtain ⟨h1, h2, h3, h4⟩ := ih rem hrest hrem
      refine ⟨h1, h2, ?_, ?_⟩
      · rw [totalBal_cons, totalBalF_cons]
        linarith
      · intro x hx
        rcases List.mem_cons.mp hx with h5 | h5
        · subst h5; exact ⟨hb0, hr0, hm0⟩
        · exact h4 x h5

theorem list_get_set_self {α : Type} :
    ∀ (l : List α) (i : ℕ) (a b : α), l.get? i = some a →
      (l.set i b).get? i = some b := by
  intro l
  induction l with
  | nil => intro i a b h; simp [List.get?] at h
  | cons x xs ih =>
    intro i a b h
    cases i with
    | zero => rfl
    | succ i =>
      simpa [List.set, List.get?] using
        ih i a b (by simpa [List.get?] using h)

theorem extraLoop_main (month : ℕ) :
    ∀ (idxs : List (ℕ × Creditor)) (ds : List Creditor) (rem : ℚ),
      LedgerNonneg ds → 0 ≤ rem →
      0 ≤ (extraLoop month idxs ds rem).2.1 ∧
      (extraLoop month idxs ds rem).2.1 ≤ rem ∧
      totalBal (extraLoop month idxs ds rem).1 + rem ≤
        totalBal ds + (extraLoop month idxs ds rem).2.1 ∧
      LedgerNonneg (extraLoop month idxs ds rem).1 := by
  intro idxs
  induction idxs with
  | nil =>
    intro ds rem hds hrem
    exact ⟨hrem, le_refl rem, by simp [extraLoop], hds⟩
  | cons q rest ih =>
    obtain ⟨i, c⟩ := q
    intro ds rem hds hrem
    simp only [extraLoop]
    split
    next hr => exact ⟨hrem, le_refl rem, by linarith, hds⟩
    next hr =>
      cases hds2 : ds.get? i with
      | none => simp only [hds2]; exact ih ds rem hds hrem
      | some d =>
        simp only [hds2]
        obtain ⟨hdb, hdr, hdm⟩ := hds d (List.get?_mem hds2)
        have hpay0 : 0 ≤ min rem d.balance := le_min hrem hdb
        have hpayr : min rem d.balance ≤ rem := min_le_left _ _
        have hpayb : min rem d.balance ≤ d.balance := min_le_right _ _
        split
        next hz =>
          have hset := totalBal_set ds i d
            { d with balance := 0, payoff_month := some month } hds2
          have hnn : LedgerNonneg
              (ds.set i { d with balance := 0, payoff_month := some month }) := by
            intro x hx
            rcases List.mem_or_eq_of_mem_set hx with h1 | h1
            · exact hds x h1
            · subst h1; exact ⟨le_refl 0, hdr, hdm⟩
          obtain ⟨h1, h2, h3, h4⟩ := ih _ (rem - min rem d.balance) hnn
            (by linarith)
          refine ⟨h1, by linarith, ?_, h4⟩
          dsimp only at hset ⊢
          linarith
        next hz =>
          have hset := totalBal_set ds i d
            { d with balance := d.balance - min rem d.balance } hds2
          have hnn : LedgerNonneg
              (ds.set i { d with balance := d.balance - min rem d.balance }) := by
            intro x hx
            rcases List.mem_or_eq_of_mem_set hx with h1 | h1
            · exact hds x h1
            · subst h1; exact ⟨by dsimp only; linarith, hdr, hdm⟩
          obtain ⟨h1, h2, h3, h4⟩ := ih _ (rem - min rem d.balance) hnn
            (by linarith)
          refine ⟨h1, by linarith, ?_, h4⟩
          dsimp only at hset ⊢
          linarith

theorem extraLoop_clears (month : ℕ) :
    ∀ (idxs : List (ℕ × Creditor)) (ds : List Creditor) (rem : ℚ),
      LedgerNonneg ds → 0 ≤ rem →
      (∀ j e, ds.get? j = some e → 0 < e.balance → j ∈ idxs.map Prod.fst) →
      0 < (extraLoop month idxs ds rem).2.1 →
      totalBal (extraLoop month idxs ds rem).1 = 0 := by
  intro idxs
  induction idxs with
  | nil =>
    intro ds rem hds hrem hcov hpos
    simp only [extraLoop]
    apply totalBal_eq_zero
    intro d hd
    obtain ⟨j, hj⟩ := List.mem_iff_get?.mp hd
    by_contra hne
    have hpos2 : 0 < d.balance :=
      lt_of_le_of_ne (hds d hd).1 (Ne.symm hne)
    exact absurd (hcov j d hj hpos2) (by simp)
  | cons q rest ih =>
    obtain ⟨i, c⟩ := q
    intro ds rem hds hrem hcov hpos
    simp only [extraLoop] at hpos ⊢
    by_cases hr : rem ≤ 0
    · rw [if_pos hr] at hpos
      dsimp only at hpos
      linarith
    · rw [if_neg hr] at hpos ⊢
      cases hds2 : ds.get? i with
      | none =>
        simp only [hds2] at hpos ⊢
        refine ih ds rem hds hrem (fun j e hj hb => ?_) hpos
        have hj2 := hcov j e hj hb
        simp only [List.map_cons, List.mem_cons] at hj2
        rcases hj2 with hj2 | hj2
        · subst hj2; rw [hj] at hds2; exact absurd hds2 (by simp)
        · exact hj2
      | some d =>
        simp only [hds2] at hpos ⊢
        obtain ⟨hdb, hdr, hdm⟩ := hds d (List.get?_mem hds2)
        have hpayr : min rem d.balance ≤ rem := min_le_left _ _
        have hpayb : min rem d.balance ≤ d.balance := min_le_right _ _
        have hrem1 : 0 ≤ rem - min rem d.balance := by linarith
        by_cases hz : d.balance - min rem d.balance ≤ 1/100 ∧
            d.payoff_month = none
        · rw [if_pos hz] at hpos ⊢
          dsimp only at hpos ⊢
          have hnn : LedgerNonneg
              (ds.set i { d with balance := 0, payoff_month := some month }) := by
            intro x hx
            rcases List.mem_or_eq_of_mem_set hx with h1 | h1
            · exact hds x h1
            · subst h1; exact ⟨le_refl 0, hdr, hdm⟩
          refine ih _ _ hnn hrem1 (fun j e hj hb => ?_) hpos
          by_cases hji : j = i
          · subst hji
            rw [list_get_set_self ds j d _ hds2] at hj
            injection hj with hj
            rw [← hj] at hb
            exact absurd hb (by simp)
          · rw [list_get_set_other ds i j _ (fun hh => hji hh.symm)] at hj
            have hj2 := hcov j e hj hb
            simp only [List.map_cons, List.mem_cons] at hj2
            rcases hj2 with hj2 | hj2
            · exact absurd hj2 hji
            · exact hj2
        · rw [if_neg hz] at hpos ⊢
          dsimp only at hpos ⊢
          obtain ⟨e1, e2, e3, e4⟩ := extraLoop_main month rest
            (ds.set i { d with balance := d.balance - min rem d.balance })
            (rem - min rem d.balance)
            (by
              intro x hx
              rcases List.mem_or_eq_of_mem_set hx with h1 | h1
              · exact hds x h1
              · subst h1; exact ⟨by dsimp only; linarith, hdr, hdm⟩)
            hrem1
          have hblt : d.balance < rem := by
            by_contra hge
            have hmeq : min rem d.balance = rem := min_eq_left (not_lt.mp hge)
            linarith
          have hmin : min rem d.balance = d.balance :=
            min_eq_right (le_of_lt hblt)
          have hnn : LedgerNonneg
              (ds.set i { d with balance := d.balance - min rem d.balance }) := by
            intro x hx
            rcases List.mem_or_eq_of_mem_set hx with h1 | h1
            · exact hds x h1
            · subst h1; exact ⟨by dsimp only; linarith, hdr, hdm⟩
          refine ih _ _ hnn hrem1 (fun j e hj hb => ?_) hpos
          by_cases hji : j = i
          · subst hji
            rw [list_get_set_self ds j d _ hds2] at hj
            injection hj with hj
            rw [← hj] at hb
            dsimp only at hb
            rw [hmin] at hb
            simp at hb
          · rw [list_get_set_other ds i j _ (fun hh => hji hh.symm)] at hj
            have hj2 := hcov j e hj hb
            simp only [List.map_cons, List.mem_cons] at hj2
            rcases hj2 with hj2 | hj2
            · exact absurd hj2 hji
            · exact hj2

theorem withIdx_of_get? :
    ∀ (ds : List Creditor) (k j : ℕ) (e : Creditor), ds.get? j = some e →
      (k + j, e) ∈ withIdx k ds := by
  intro ds
  induction ds with
  | nil => intro k j e h; simp [List.get?] at h
  | cons d rest ih =>
    intro k j e h
    cases j with
    | zero =>
      simp only [List.get?] at h
      injection h with h
      subst h
      simp [withIdx]
    | succ j =>
      simp only [List.get?] at h
      have hmem := ih (k + 1) j e h
      rw [show k + (j + 1) = (k + 1) + j from by omega]
      exact List.mem_cons_of_mem _ hmem

theorem sortActive_covers (strategy : String) (ds : List Creditor) :
    ∀ j e, ds.get? j = some e → 0 < e.balance →
      j ∈ (sortActive strategy ds).map Prod.fst := by
  intro j e hj hb
  have hmem : (j, e) ∈ (withIdx 0 ds).filter
      fun x => decide (0 < x.2.balance) := by
    rw [List.mem_filter]
    refine ⟨?_, by simpa using hb⟩
    simpa using withIdx_of_get? ds 0 j e hj
  have hmem2 : (j, e) ∈ sortActive strategy ds := by
    unfold sortActive
    split <;> exact ((List.perm_insertionSort _ _).mem_iff).mpr hmem
  exact List.mem_map_of_mem Prod.fst hmem2

theorem totalBalF_flagOf (ds : List Creditor) :
    totalBalF (flagOf ds) = totalBal ds := by
  induction ds with
  | nil => rfl
  | cons d rest ih =>
    rw [show flagOf (d :: rest) =
        (d, decide (0 < d.balance)) :: flagOf rest from rfl,
      totalBalF_cons, totalBal_cons, ih]

theorem flagOf_nonnegF (ds : List Creditor) (h : LedgerNonneg ds) :
    LedgerNonnegF (flagOf ds) := by
  intro q hq
  simp only [flagOf, List.mem_map] at hq
  obtain ⟨d, hdm, hde⟩ := hq
  rw [← hde]
  exact h d hdm

theorem debtAlloc_main (strategy : String) (eT : ℚ) (month : ℕ)
    (ds : List Creditor) (fund surplus : ℚ) (h : LedgerNonneg ds)
    (hs : 0 ≤ surplus) :
    LedgerNonneg (debtAlloc strategy eT month ds fund surplus).1 ∧
    (accrualOf ds ≤ surplus →
      totalBal (debtAlloc strategy eT month ds fund surplus).1 ≤
        totalBal ds) := by
  have hatot := accrue_total (flagOf ds)
  have haint := accrue_interest ds
  have hfltot := totalBalF_flagOf ds
  have haccN := accrue_nonnegF (flagOf ds) (flagOf_nonnegF ds h)
  obtain ⟨m1, m2, m3, m4⟩ :=
    minPay_main month (accrue (flagOf ds)).1 surplus haccN hs
  simp only [debtAlloc]
  split
  next hrm =>
    obtain ⟨e1, e2, e3, e4⟩ := extraLoop_main month
      (sortActive strategy (minPayPass month (accrue (flagOf ds)).1 surplus).1)
      (minPayPass month (accrue (flagOf ds)).1 surplus).1
      (minPayPass month (accrue (flagOf ds)).1 surplus).2.1
      m4 (le_of_lt hrm)
    refine ⟨e4, fun hacc => ?_⟩
    by_cases hpos : 0 < (extraLoop month
        (sortActive strategy
          (minPayPass month (accrue (flagOf ds)).1 surplus).1)
        (minPayPass month (accrue (flagOf ds)).1 surplus).1
        (minPayPass month (accrue (flagOf ds)).1 surplus).2.1).2.1
    · have hclear := extraLoop_clears month
        (sortActive strategy
          (minPayPass month (accrue (flagOf ds)).1 surplus).1)
        (minPayPass month (accrue (flagOf ds)).1 surplus).1
        (minPayPass month (accrue (flagOf ds)).1 surplus).2.1
        m4 (le_of_lt hrm)
        (sortActive_covers strategy _) hpos
      rw [hclear]
      exact totalBal_nonneg ds fun d hd => (h d hd).1
    · have he0 : (extraLoop month
          (sortActive strategy
            (minPayPass month (accrue (flagOf ds)).1 surplus).1)
          (minPayPass month (accrue (flagOf ds)).1 surplus).1
          (minPayPass month (accrue (flagOf ds)).1 surplus).2.1).2.1 = 0 :=
        le_antisymm (not_lt.mp hpos) e1
      linarith
  next hrm =>
    refine ⟨m4, fun hacc => ?_⟩
    have hm0 : (minPayPass month (accrue (flagOf ds)).1 surplus).2.1 = 0 :=
      le_antisymm (not_lt.mp hrm) m1
    linarith

theorem allocate_ledgerNonneg (p : Profile) (eT wY : ℚ) (month : ℕ)
    (phase : Phase) (surplus : ℚ) (s : RunState)
    (h : LedgerNonneg s.debts) :
    LedgerNonneg (allocate p eT wY month phase surplus s).1.debts := by
  unfold allocate
  split
  next hg =>
    cases phase with
    | DEBT =>
      simpa using (debtAlloc_main p.strategy eT month s.debts s.emergencyFund
        surplus h (le_of_lt hg.2)).1
    | EMERGENCY => simpa using h
    | INVESTING => simpa using h
  next hg => simpa using h

theorem stepMonth_ledgerNonneg (p : Profile) (eT wY : ℚ) (month : ℕ)
    (s : RunState) (h : LedgerNonneg s.debts) :
    LedgerNonneg (stepMonth p eT wY month s).1.debts := by
  have := allocate_ledgerNonneg p eT wY month
    (classify (totalActiveDebt (escalate p month s).debts)
      (escalate p month s).emergencyFund eT)
    ((escalate p month s).income - (escalate p month s).expenses)
    (escalate p month s) (by rw [escalate_debts]; exact h)
  simpa [stepMonth] using this

theorem stateAt_ledgerNonneg (p : Profile) (ds : List Creditor)
    (h : LedgerNonneg ds) : ∀ m, LedgerNonneg (stateAt p ds m).debts := by
  intro m
  induction m with
  | zero =>
    intro d hd
    simp only [stateAt, runMonths, initState, List.mem_map] at hd
    obtain ⟨c, hcm, hce⟩ := hd
    obtain ⟨h1, h2, h3⟩ := h c hcm
    rw [← hce]
    exact ⟨h1, h2, h3⟩
  | succ m ih =>
    rw [stateAt_succ]
    exact stepMonth_ledgerNonneg p _ _ m (stateAt p ds m) ih

theorem snapAt_phase (p : Profile) (ds : List Creditor) (m : ℕ) :
    (snapAt p ds m).phase =
      classify (totalActiveDebt (stateAt p ds m).debts)
        (stateAt p ds m).emergencyFund (p.emergency_months * p.expenses) := by
  simp [snapAt, stepMonth, escalate_debts, escalate_emergencyFund]

/-- C3 counterexample: with surplus 50 and monthly interest 100 the total
debt *rises* from 10000 (month 1) to 10050 (month 2) even though the phase
is Debt and the surplus is positive in both months. -/
theorem debt_monotonicity_cex :
    ((runProjection pGrow dGrow 1).1.get? 1).map
        (fun s => (s.phase, s.totalDebt, s.income, s.expenses)) =
      some (Phase.DEBT, 10000, 1050, 1000) ∧
    ((runProjection pGrow dGrow 1).1.get? 2).map
        (fun s => (s.phase, s.totalDebt)) = some (Phase.DEBT, 10050) ∧
    ¬ ((10050 : ℚ) ≤ 10000) :=
  ⟨by decide, by decide, by decide⟩

/-- C3 (amended): under the data-model invariant (nonnegative balances,
rates and minimum payments), if the phase at month m is Debt, the surplus at
month m is positive *and at least the interest accrued across all active
creditors that month*, then the total outstanding debt at month m+1 is at
most the total at month m.  (Without the interest-coverage condition the
claim is false, see the counterexample.) -/
theorem debt_nonincreasing_when_interest_covered (p : Profile)
    (ds : List Creditor) (m : ℕ) (hnn : LedgerNonneg ds)
    (hph : (snapAt p ds m).phase = Phase.DEBT)
    (hsur : 0 < (escalate p m (stateAt p ds m)).income -
      (escalate p m (stateAt p ds m)).expenses)
    (hint : accrualOf (stateAt p ds m).debts ≤
      (escalate p m (stateAt p ds m)).income -
        (escalate p m (stateAt p ds m)).expenses) :
    totalActiveDebt (stateAt p ds (m + 1)).debts ≤
      totalActiveDebt (stateAt p ds m).debts := by
  have hsN := stateAt_ledgerNonneg p ds hnn m
  have hsNE : LedgerNonneg (escalate p m (stateAt p ds m)).debts := by
    rw [escalate_debts]; exact hsN
  rw [stateAt_succ]
  show totalActiveDebt
      (allocate p (p.emergency_months * p.expenses) (weightedYield p) m
        (classify (totalActiveDebt (escalate p m (stateAt p ds m)).debts)
          (escalate p m (stateAt p ds m)).emergencyFund
          (p.emergency_months * p.expenses))
        ((escalate p m (stateAt p ds m)).income -
          (escalate p m (stateAt p ds m)).expenses)
        (escalate p m (stateAt p ds m))).1.debts ≤
    totalActiveDebt (stateAt p ds m).debts
  have hcl : classify (totalActiveDebt (escalate p m (stateAt p ds m)).debts)
      (escalate p m (stateAt p ds m)).emergencyFund
      (p.emergency_months * p.expenses) = Phase.DEBT := by
    rw [escalate_debts, escalate_emergencyFund, ← snapAt_phase]
    exact hph
  rw [hcl]
  unfold allocate
  split
  next hg =>
    have hmain := debtAlloc_main p.strategy (p.emergency_months * p.expenses)
      m (escalate p m (stateAt p ds m)).debts
      (escalate p m (stateAt p ds m)).emergencyFund
      ((escalate p m (stateAt p ds m)).income -
        (escalate p m (stateAt p ds m)).expenses)
      hsNE (le_of_lt hsur)
    have htot := hmain.2 (by rw [escalate_debts]; exact hint)
    have houtN : LedgerNonneg (debtAlloc p.strategy
        (p.emergency_months * p.expenses) m
        (escalate p m (stateAt p ds m)).debts
        (escalate p m (stateAt p ds m)).emergencyFund
        ((escalate p m (stateAt p ds m)).income -
          (escalate p m (stateAt p ds m)).expenses)).1 := hmain.1
    dsimp only
    rw [totalActiveDebt_eq_totalBal _ fun d hd => (houtN d hd).1,
      totalActiveDebt_eq_totalBal _ fun d hd => (hsN d hd).1]
    have hre : (escalate p m (stateAt p ds m)).debts = (stateAt p ds m).debts :=
      escalate_debts p m (stateAt p ds m)
    rw [← hre]
    exact htot
  next hg =>
    dsimp only
    rw [escalate_debts]

/-- Witness for `debt_nonincreasing_when_interest_covered` at month 1 of a
concrete run (surplus 1000 covers the 5 of accrued interest). -/
theorem debt_nonincreasing_witness :
    totalActiveDebt (stateAt pTarget dPaid (1 + 1)).debts ≤
      totalActiveDebt (stateAt pTarget dPaid 1).debts :=
  debt_nonincreasing_when_interest_covered pTarget dPaid 1
    (by unfold LedgerNonneg; decide) (by decide) (by decide) (by decide)

end FinanceTracker
